import Mathlib

/-!
# A shallow embedding of `cache2go` (rif/cache2go, `cache.go`)

The Go source implements an LRU cache with optional TTL expiration.  Its
state consists of four structures sharing mutable `*list.Element` nodes:

* `lruIndex *list.List`  — recency order, front = most recently used;
* `ttlIndex []*list.Element` — expiry queue, append-on-insert order;
* `cache map[string]*list.Element` — key lookup;
* each element's `Value` is an `*entry{key, value, timestamp}`.

We model element identity (a Go pointer) by a `Nat` id drawn from a
fresh-id counter, and the mutable entry records by an association list
`heap : List (Nat × Entry V)` keyed by id.  The three index structures
hold ids, exactly mirroring the aliasing in the source (in particular a
`Set` on an existing key mutates the entry record *through* the shared
id, which is visible from the expiry queue — that aliasing is what some
of the TTL claims are about).

Nil-ness matters to the source (a zero-value `Cache` has a nil map and a
nil list pointer, and every method guards on `c.cache == nil`), so the
map and the list pointer are `Option`s and every operation that could
dereference a nil pointer or fail a type assertion returns an `Option`
result, `none` modelling a Go panic.  Nil slices (`ttlIndex`) behave
exactly like empty slices for `len`, `append` and `range`, so the expiry
queue is a plain `List Nat`.

Time (`time.Time`, `time.Duration`) is modelled by `Nat` instants passed
in explicitly where the source calls `time.Now()`; durations handed to
`time.Sleep` are `Int` because the source can produce a negative one.

Locks are dropped: each exported operation runs atomically, and the
sweeper loop body is modelled as one atomic step `cleanExpiredStep`.
-/

namespace Cache2go

/-- the Go `entry` struct: `{key string; value interface{}; timestamp time.Time}`. -/
structure Entry (V : Type) where
  key : String
  value : V
  timestamp : Nat
deriving Repr, DecidableEq

/-- the Go `Cache` struct.  `cache = none` / `lruIndex = none` model the nil
map and nil list pointer of a zero-value `Cache`; `heap` carries the entry
records addressed by element id; `nextId` is the fresh-id source standing in
for pointer allocation. -/
structure Cache (V : Type) where
  maxEntries : Nat
  expiration : Nat
  heap : List (Nat × Entry V)
  lruIndex : Option (List Nat)
  ttlIndex : List Nat
  cache : Option (List (String × Nat))
  nextId : Nat
deriving Repr, DecidableEq

variable {V : Type}

/-- Go map read `m[key]`: the id stored under `key`, if any. -/
def findId (k : String) : List (String × Nat) → Option Nat
  | [] => none
  | p :: rest => if p.1 = k then some p.2 else findId k rest

/-- dereference an element id to its entry record (`e.Value.(*entry)`). -/
def findEntry (i : Nat) : List (Nat × Entry V) → Option (Entry V)
  | [] => none
  | p :: rest => if p.1 = i then some p.2 else findEntry i rest

/-- Go map delete `delete(m, k)`. -/
def eraseKey (k : String) (m : List (String × Nat)) : List (String × Nat) :=
  m.filter (fun p => p.1 ≠ k)

/-- remove the first occurrence of an id from an id list: `list.Remove` on the
recency list, and the scan-copy-truncate removal in `removeElement` on the
expiry slice. -/
def removeFirst (i : Nat) : List Nat → List Nat
  | [] => []
  | j :: rest => if j = i then rest else j :: removeFirst i rest

/-- in-place mutation of the entry record behind id `i`
(`en.value = value; en.timestamp = time.Now()`). -/
def updateEntry (i : Nat) (v : V) (now : Nat) (h : List (Nat × Entry V)) :
    List (Nat × Entry V) :=
  h.map (fun p => if p.1 = i then (p.1, { p.2 with value := v, timestamp := now }) else p)

/-- `New(maxEntries, expire)`: empty structures.  (In Go `ttlIndex` is made
empty only when `expire > 0` and left nil otherwise; a nil slice and an empty
slice are observationally equal here, so both are `[]`.) -/
def Cache.new (V : Type) (maxEntries expiration : Nat) : Cache V :=
  { maxEntries := maxEntries
    expiration := expiration
    heap := []
    lruIndex := some []
    ttlIndex := []
    cache := some []
    nextId := 0 }

/-- the zero value of the `Cache` struct: nil map, nil list pointer,
zero numeric fields.  (`New` is not the only way a `Cache` arises.) -/
def Cache.zero (V : Type) : Cache V :=
  { maxEntries := 0
    expiration := 0
    heap := []
    lruIndex := none
    ttlIndex := []
    cache := none
    nextId := 0 }

/-- `removeElement(e)`: unlink from the recency list, scan the expiry slice
for the same element and delete it (only when TTL is enabled), then delete the
entry's key from the map (skipped when `e.Value == nil`; a delete on a nil map
is a no-op in Go, hence `Option.map`).  The only possible panic is the method
call on a nil `lruIndex`. -/
def removeElement (c : Cache V) (i : Nat) : Option (Cache V) :=
  match c.lruIndex with
  | none => none
  | some lru =>
    let ttl' := if 0 < c.expiration then removeFirst i c.ttlIndex else c.ttlIndex
    let cache' := match findEntry i c.heap with
      | some en => c.cache.map (eraseKey en.key)
      | none => c.cache
    some { c with lruIndex := some (removeFirst i lru), ttlIndex := ttl', cache := cache' }

/-- `removeOldest()`: drop the element at the back of the recency list. -/
def removeOldest (c : Cache V) : Option (Cache V) :=
  if c.cache.isNone then some c
  else
    match c.lruIndex with
    | none => none
    | some lru =>
      match lru.getLast? with
      | none => some c
      | some i => removeElement c i

/-- `Set(key, value)` at instant `now`: lazily initialize a nil map, then
either refresh an existing entry in place and promote it, or push a fresh
entry to the front, append it to the expiry queue when TTL is enabled, index
it, and evict the back of the recency list if the size now exceeds a nonzero
capacity. -/
def Cache.set (c : Cache V) (key : String) (value : V) (now : Nat) : Option (Cache V) :=
  let c :=
    if c.cache.isNone then
      { c with cache := some []
               lruIndex := some []
               ttlIndex := if 0 < c.expiration then [] else c.ttlIndex }
    else c
  match c.cache with
  | none => none
  | some m =>
    match findId key m with
    | some i =>
      match c.lruIndex with
      | none => none
      | some lru =>
        some { c with lruIndex := some (i :: removeFirst i lru)
                      heap := updateEntry i value now c.heap }
    | none =>
      match c.lruIndex with
      | none => none
      | some lru =>
        let i := c.nextId
        let c' : Cache V :=
          { c with heap := (i, ⟨key, value, now⟩) :: c.heap
                   lruIndex := some (i :: lru)
                   ttlIndex := if 0 < c.expiration then c.ttlIndex ++ [i] else c.ttlIndex
                   cache := some ((key, i) :: eraseKey key m)
                   nextId := i + 1 }
        if c'.maxEntries ≠ 0 ∧ c'.maxEntries < lru.length + 1 then removeOldest c'
        else some c'

/-- `Get(key)`: `(value, ok)` plus the post-state (a hit promotes the entry to
the front of the recency list).  `none` in the first component is the zero
value of `interface{}`. -/
def Cache.get (c : Cache V) (key : String) : Option (Option V × Bool × Cache V) :=
  match c.cache with
  | none => some (none, false, c)
  | some m =>
    match findId key m with
    | none => some (none, false, c)
    | some i =>
      match c.lruIndex with
      | none => none
      | some lru =>
        match findEntry i c.heap with
        | none => none
        | some en =>
          some (some en.value, true, { c with lruIndex := some (i :: removeFirst i lru) })

/-- `Delete(key)`: remove the entry if present, otherwise do nothing. -/
def Cache.delete (c : Cache V) (key : String) : Option (Cache V) :=
  match c.cache with
  | none => some c
  | some m =>
    match findId key m with
    | none => some c
    | some i => removeElement c i

/-- `Len()`: 0 on a nil map, else the length of the recency list. -/
def Cache.len (c : Cache V) : Option Nat :=
  match c.cache with
  | none => some 0
  | some _ => c.lruIndex.map List.length

/-- `Flush()`: fresh empty structures (the expiry slice is re-made only when
TTL is enabled, as in the source). -/
def Cache.flush (c : Cache V) : Cache V :=
  { c with lruIndex := some []
           ttlIndex := if 0 < c.expiration then [] else c.ttlIndex
           cache := some [] }

/-- what one iteration of the sweeper loop does. -/
inductive SweepAction where
  /-- the iteration called `time.Sleep d` (Go sleeps max(d, 0)). -/
  | sleepFor (d : Int)
  /-- the iteration removed the element with this id. -/
  | removeExpired (i : Nat)
deriving Repr, DecidableEq

/-- one iteration of the `cleanExpired` sweeper loop at instant `now`:
if the expiry queue is empty, sleep for the full TTL; otherwise read the head
entry's timestamp, and either remove the head (when `now` is strictly after
`timestamp + expiration`) or sleep for `time.Now().Sub(exp)`, i.e.
`now - exp`, exactly as the source computes it. -/
def cleanExpiredStep (c : Cache V) (now : Nat) : Option (SweepAction × Cache V) :=
  match c.ttlIndex with
  | [] => some (.sleepFor (c.expiration : Int), c)
  | i :: _ =>
    match findEntry i c.heap with
    | none => none
    | some en =>
      let exp := en.timestamp + c.expiration
      if exp < now then (removeElement c i).map (fun c2 => (.removeExpired i, c2))
      else some (.sleepFor ((now : Int) - (exp : Int)), c)

/-!
## Well-formedness

The structural invariant of a cache state.  Element ids are allocated in
increasing order by `Set`, so "original insertion order" on the expiry queue
is exactly "strictly increasing ids".
-/

/-- the invariant on the components of an initialized cache (`m` the map,
`lru` the recency list):

* the recency list holds no id twice;
* the map holds no key twice;
* every map pair points at a live recency position whose entry record carries
  that key;
* every recency position is indexed by the map;
* all live ids are below the fresh-id counter;
* when TTL is enabled, the expiry queue lists exactly the live ids, in
  original insertion order (strictly increasing ids). -/
def WFparts (c : Cache V) (m : List (String × Nat)) (lru : List Nat) : Prop :=
  lru.Nodup ∧
  (m.map Prod.fst).Nodup ∧
  (∀ p ∈ m, p.2 ∈ lru ∧ (findEntry p.2 c.heap).map Entry.key = some p.1) ∧
  (∀ i ∈ lru, i ∈ m.map Prod.snd) ∧
  (∀ i ∈ lru, i < c.nextId) ∧
  (0 < c.expiration →
    c.ttlIndex.Pairwise (· < ·) ∧
    (∀ i ∈ c.ttlIndex, i ∈ lru) ∧ (∀ i ∈ lru, i ∈ c.ttlIndex))

instance (c : Cache V) (m : List (String × Nat)) (lru : List Nat) :
    Decidable (WFparts c m lru) := by
  unfold WFparts
  infer_instance

/-- a cache state is well-formed when it is the zero value (nil map — every
operation guards on that) or initialized with `WFparts` holding. -/
def WF (c : Cache V) : Prop :=
  match c.cache, c.lruIndex with
  | none, _ => True
  | some _, none => False
  | some m, some lru => WFparts c m lru

instance (c : Cache V) : Decidable (WF c) := by
  unfold WF
  rcases c.cache with _ | m <;> rcases c.lruIndex with _ | lru
  · exact isTrue trivial
  · exact isTrue trivial
  · exact isFalse id
  · infer_instance

/-!
## Helper lemmas about the association-list and id-list primitives
-/

theorem findId_cons {k : String} {p : String × Nat} {m : List (String × Nat)} :
    findId k (p :: m) = if p.1 = k then some p.2 else findId k m := rfl

theorem findId_eq_none_iff {k : String} {m : List (String × Nat)} :
    findId k m = none ↔ ∀ p ∈ m, p.1 ≠ k := by
  induction m with
  | nil => simp [findId]
  | cons p rest ih =>
    by_cases h : p.1 = k <;> simp [findId_cons, h, ih]

theorem findId_mem {k : String} {m : List (String × Nat)} {i : Nat}
    (h : findId k m = some i) : (k, i) ∈ m := by
  induction m with
  | nil => simp [findId] at h
  | cons p rest ih =>
    by_cases hp : p.1 = k
    · rw [findId_cons, if_pos hp, Option.some.injEq] at h
      obtain ⟨a, b⟩ := p
      simp only at hp h
      subst hp
      subst h
      exact List.mem_cons_self _ _
    · rw [findId_cons, if_neg hp] at h
      exact List.mem_cons_of_mem _ (ih h)

theorem findId_of_mem {k : String} {m : List (String × Nat)} {i : Nat}
    (h : (k, i) ∈ m) (hnd : (m.map Prod.fst).Nodup) : findId k m = some i := by
  induction m with
  | nil => simp at h
  | cons p rest ih =>
    simp only [List.map_cons, List.nodup_cons] at hnd
    rcases List.mem_cons.mp h with h | h
    · cases h
      simp [findId]
    · have hne : p.1 ≠ k := by
        intro hk
        exact hnd.1 (hk ▸ (List.mem_map.mpr ⟨(k, i), h, rfl⟩))
      simp only [findId, if_neg hne]
      exact ih h hnd.2

theorem mem_eraseKey {k : String} {m : List (String × Nat)} {p : String × Nat} :
    p ∈ eraseKey k m ↔ p ∈ m ∧ p.1 ≠ k := by
  simp [eraseKey, List.mem_filter]

theorem eraseKey_sublist (k : String) (m : List (String × Nat)) :
    (eraseKey k m).Sublist m :=
  List.filter_sublist m

theorem eraseKey_cons {k : String} {p : String × Nat} {m : List (String × Nat)} :
    eraseKey k (p :: m) = if p.1 = k then eraseKey k m else p :: eraseKey k m := by
  by_cases hp : p.1 = k <;> simp [eraseKey, List.filter_cons, hp]

theorem findId_eraseKey_ne {k k' : String} {m : List (String × Nat)}
    (h : k ≠ k') : findId k (eraseKey k' m) = findId k m := by
  induction m with
  | nil => rfl
  | cons p rest ih =>
    rw [eraseKey_cons]
    by_cases hp : p.1 = k'
    · have hpk : p.1 ≠ k := fun hc => h (hc.symm.trans hp)
      rw [if_pos hp, ih, findId_cons, if_neg hpk]
    · rw [if_neg hp, findId_cons, findId_cons, ih]

theorem findId_eraseKey_self {k : String} {m : List (String × Nat)} :
    findId k (eraseKey k m) = none := by
  rw [findId_eq_none_iff]
  intro p hp
  exact (mem_eraseKey.mp hp).2

theorem removeFirst_sublist (i : Nat) (l : List Nat) : (removeFirst i l).Sublist l := by
  induction l with
  | nil => simp [removeFirst]
  | cons j rest ih =>
    simp only [removeFirst]
    split
    · exact List.sublist_cons_self j rest
    · exact ih.cons₂ j

theorem mem_of_mem_removeFirst {x i : Nat} {l : List Nat}
    (h : x ∈ removeFirst i l) : x ∈ l :=
  (removeFirst_sublist i l).subset h

theorem mem_removeFirst_of_ne {x i : Nat} {l : List Nat}
    (hx : x ∈ l) (hne : x ≠ i) : x ∈ removeFirst i l := by
  induction l with
  | nil => simp at hx
  | cons j rest ih =>
    simp only [removeFirst]
    rcases List.mem_cons.mp hx with h | h
    · subst h
      rw [if_neg hne]
      exact List.mem_cons_self x _
    · split
      · exact h
      · exact List.mem_cons_of_mem _ (ih h)

theorem not_mem_removeFirst_self {i : Nat} {l : List Nat} (hnd : l.Nodup) :
    i ∉ removeFirst i l := by
  induction l with
  | nil => simp [removeFirst]
  | cons j rest ih =>
    rw [List.nodup_cons] at hnd
    simp only [removeFirst]
    split
    · rename_i hj
      subst hj
      exact hnd.1
    · rename_i hj
      intro hmem
      rcases List.mem_cons.mp hmem with h | h
      · exact hj h.symm
      · exact ih hnd.2 h

theorem mem_removeFirst_iff {x i : Nat} {l : List Nat} (hnd : l.Nodup) :
    x ∈ removeFirst i l ↔ x ∈ l ∧ x ≠ i := by
  constructor
  · intro h
    refine ⟨mem_of_mem_removeFirst h, ?_⟩
    rintro rfl
    exact not_mem_removeFirst_self hnd h
  · rintro ⟨hx, hne⟩
    exact mem_removeFirst_of_ne hx hne

theorem removeFirst_of_not_mem {i : Nat} {l : List Nat} (h : i ∉ l) :
    removeFirst i l = l := by
  induction l with
  | nil => rfl
  | cons j rest ih =>
    simp only [List.mem_cons, not_or] at h
    have hji : ¬ j = i := fun hj => h.1 hj.symm
    simp only [removeFirst, if_neg hji]
    rw [ih h.2]

theorem length_removeFirst_of_mem {i : Nat} {l : List Nat} (h : i ∈ l) :
    (removeFirst i l).length + 1 = l.length := by
  induction l with
  | nil => simp at h
  | cons j rest ih =>
    simp only [removeFirst]
    split
    · simp
    · rename_i hj
      have : i ∈ rest := by
        rcases List.mem_cons.mp h with h' | h'
        · exact absurd h'.symm hj
        · exact h'
      simp only [List.length_cons, ih this]

theorem findEntry_cons {j : Nat} {p : Nat × Entry V} {h : List (Nat × Entry V)} :
    findEntry j (p :: h) = if p.1 = j then some p.2 else findEntry j h := rfl

theorem findEntry_cons_self {i : Nat} {en : Entry V} {h : List (Nat × Entry V)} :
    findEntry i ((i, en) :: h) = some en := by
  simp [findEntry]

theorem findEntry_cons_ne {i j : Nat} {en : Entry V} {h : List (Nat × Entry V)}
    (hne : i ≠ j) : findEntry j ((i, en) :: h) = findEntry j h := by
  simp [findEntry, hne]

theorem updateEntry_cons {i : Nat} {v : V} {now : Nat} {p : Nat × Entry V}
    {h : List (Nat × Entry V)} :
    updateEntry i v now (p :: h) =
      (if p.1 = i then (p.1, { p.2 with value := v, timestamp := now }) else p) ::
        updateEntry i v now h := rfl

theorem findEntry_updateEntry {i j : Nat} {v : V} {now : Nat}
    {h : List (Nat × Entry V)} :
    findEntry j (updateEntry i v now h) =
      (findEntry j h).map
        (fun en => if j = i then { en with value := v, timestamp := now } else en) := by
  induction h with
  | nil => rfl
  | cons p rest ih =>
    rw [updateEntry_cons]
    by_cases hpi : p.1 = i
    · rw [if_pos hpi]
      by_cases hpj : p.1 = j
      · have hji : j = i := hpj.symm.trans hpi
        rw [findEntry_cons, findEntry_cons]
        simp [hpj, hji]
      · rw [findEntry_cons, findEntry_cons]
        simp only [hpj, if_neg hpj, ih]
        rfl
    · rw [if_neg hpi]
      by_cases hpj : p.1 = j
      · have hji : ¬ j = i := fun hc => hpi (hpj.trans hc)
        rw [findEntry_cons, findEntry_cons, if_pos hpj, if_pos hpj]
        simp [hji]
      · rw [findEntry_cons, findEntry_cons, if_neg hpj, if_neg hpj, ih]

theorem findEntry_updateEntry_key {i j : Nat} {v : V} {now : Nat}
    {h : List (Nat × Entry V)} :
    (findEntry j (updateEntry i v now h)).map Entry.key =
      (findEntry j h).map Entry.key := by
  rw [findEntry_updateEntry]
  cases findEntry j h with
  | none => rfl
  | some en =>
    simp only [Option.map_some']
    split <;> rfl

theorem fst_lt_of_mem_updateEntry {i : Nat} {v : V} {now b : Nat}
    {h : List (Nat × Entry V)} (hb : ∀ p ∈ h, p.1 < b) :
    ∀ p ∈ updateEntry i v now h, p.1 < b := by
  intro p hp
  obtain ⟨a, ha, rfl⟩ := List.mem_map.mp hp
  have := hb a ha
  split <;> simpa using this

theorem mem_of_getLast?_eq {l : List Nat} {i : Nat} (h : l.getLast? = some i) :
    i ∈ l := by
  induction l with
  | nil => simp at h
  | cons j rest ih =>
    cases rest with
    | nil =>
      simp only [List.getLast?_singleton, Option.some.injEq] at h
      subst h
      exact List.mem_cons_self _ _
    | cons j' rest' =>
      rw [List.getLast?_cons_cons] at h
      exact List.mem_cons_of_mem _ (ih h)

theorem nodup_moveToFront {i : Nat} {l : List Nat} (hnd : l.Nodup) :
    (i :: removeFirst i l).Nodup :=
  List.nodup_cons.mpr
    ⟨not_mem_removeFirst_self hnd,
     List.Nodup.sublist (removeFirst_sublist i l) hnd⟩

theorem mem_moveToFront_iff {i j : Nat} {l : List Nat} (hi : i ∈ l) :
    j ∈ i :: removeFirst i l ↔ j ∈ l := by
  constructor
  · intro h
    rcases List.mem_cons.mp h with h | h
    · exact h ▸ hi
    · exact mem_of_mem_removeFirst h
  · intro h
    by_cases hj : j = i
    · exact hj ▸ List.mem_cons_self _ _
    · exact List.mem_cons_of_mem _ (mem_removeFirst_of_ne h hj)

theorem length_moveToFront {i : Nat} {l : List Nat} (hi : i ∈ l) :
    (i :: removeFirst i l).length = l.length := by
  simpa using length_removeFirst_of_mem hi

/-!
## Facts derived from the invariant
-/

/-- every live recency position resolves through the heap, and the map indexes
it back under its entry's key. -/
theorem WFparts.resolve {c : Cache V} {m : List (String × Nat)} {lru : List Nat}
    (w : WFparts c m lru) {i : Nat} (hi : i ∈ lru) :
    ∃ en, findEntry i c.heap = some en ∧ (en.key, i) ∈ m ∧
      findId en.key m = some i := by
  obtain ⟨_, hkeys, hcorr, hsurj, _, _⟩ := w
  obtain ⟨p, hp, hpi⟩ := List.mem_map.mp (hsurj i hi)
  obtain ⟨_, hkey⟩ := hcorr p hp
  obtain ⟨en, hen, henk⟩ := Option.map_eq_some'.mp hkey
  refine ⟨en, hpi ▸ hen, ?_, ?_⟩
  · have : (en.key, i) = p := by
      obtain ⟨a, b⟩ := p
      simp only at hpi henk
      simp [henk, hpi]
    exact this ▸ hp
  · apply findId_of_mem _ hkeys
    have : (en.key, i) = p := by
      obtain ⟨a, b⟩ := p
      simp only at hpi henk
      simp [henk, hpi]
    exact this ▸ hp

/-- two distinct live positions carry distinct keys. -/
theorem WFparts.key_inj {c : Cache V} {m : List (String × Nat)} {lru : List Nat}
    (w : WFparts c m lru) {i i' : Nat} (hi : i ∈ lru) (hi' : i' ∈ lru)
    {en en' : Entry V} (he : findEntry i c.heap = some en)
    (he' : findEntry i' c.heap = some en') (hk : en.key = en'.key) : i = i' := by
  obtain ⟨en₁, he₁, _, hfi⟩ := w.resolve hi
  obtain ⟨en₂, he₂, _, hfi'⟩ := w.resolve hi'
  rw [he] at he₁
  rw [he'] at he₂
  cases he₁
  cases he₂
  rw [hk] at hfi
  exact Option.some.inj (hfi.symm.trans hfi')

/-!
## Unfolding the operations on explicit states
-/

theorem removeElement_eq {c : Cache V} {lru : List Nat} {i : Nat} {en : Entry V}
    (hl : c.lruIndex = some lru) (he : findEntry i c.heap = some en) :
    removeElement c i = some
      { c with lruIndex := some (removeFirst i lru)
               ttlIndex :=
                 if 0 < c.expiration then removeFirst i c.ttlIndex else c.ttlIndex
               cache := c.cache.map (eraseKey en.key) } := by
  simp [removeElement, hl, he]

/-- the state `Set` builds for an absent key, before any eviction check. -/
def inserted (c : Cache V) (k : String) (v : V) (now : Nat)
    (m : List (String × Nat)) (lru : List Nat) : Cache V :=
  { c with heap := (c.nextId, ⟨k, v, now⟩) :: c.heap
           lruIndex := some (c.nextId :: lru)
           ttlIndex := if 0 < c.expiration then c.ttlIndex ++ [c.nextId] else c.ttlIndex
           cache := some ((k, c.nextId) :: eraseKey k m)
           nextId := c.nextId + 1 }

theorem set_hit_eq {c : Cache V} {m : List (String × Nat)} {lru : List Nat}
    {k : String} {v : V} {now i : Nat}
    (hm : c.cache = some m) (hl : c.lruIndex = some lru)
    (hid : findId k m = some i) :
    c.set k v now = some
      { c with lruIndex := some (i :: removeFirst i lru)
               heap := updateEntry i v now c.heap } := by
  simp [Cache.set, hm, hl, hid]

theorem set_miss_eq {c : Cache V} {m : List (String × Nat)} {lru : List Nat}
    {k : String} {v : V} {now : Nat}
    (hm : c.cache = some m) (hl : c.lruIndex = some lru)
    (hid : findId k m = none) :
    c.set k v now =
      if c.maxEntries ≠ 0 ∧ c.maxEntries < lru.length + 1
      then removeOldest (inserted c k v now m lru)
      else some (inserted c k v now m lru) := by
  simp [Cache.set, inserted, hm, hl, hid]

theorem set_nil_eq {c : Cache V} {k : String} {v : V} {now : Nat}
    (hm : c.cache = none) :
    c.set k v now = some
      { c with heap := (c.nextId, ⟨k, v, now⟩) :: c.heap
               lruIndex := some [c.nextId]
               ttlIndex := if 0 < c.expiration then [c.nextId] else c.ttlIndex
               cache := some [(k, c.nextId)]
               nextId := c.nextId + 1 } := by
  have hcap : ¬(c.maxEntries ≠ 0 ∧ c.maxEntries < 1) := by omega
  simp [Cache.set, hm, findId, eraseKey, hcap]
  split <;> rfl

theorem get_hit_eq {c : Cache V} {m : List (String × Nat)} {lru : List Nat}
    {k : String} {i : Nat} {en : Entry V}
    (hm : c.cache = some m) (hl : c.lruIndex = some lru)
    (hid : findId k m = some i) (he : findEntry i c.heap = some en) :
    c.get k = some (some en.value, true,
      { c with lruIndex := some (i :: removeFirst i lru) }) := by
  simp [Cache.get, hm, hl, hid, he]

theorem get_miss_eq {c : Cache V} {m : List (String × Nat)} {k : String}
    (hm : c.cache = some m) (hid : findId k m = none) :
    c.get k = some (none, false, c) := by
  simp [Cache.get, hm, hid]

theorem get_nil_eq {c : Cache V} {k : String} (hm : c.cache = none) :
    c.get k = some (none, false, c) := by
  simp [Cache.get, hm]

theorem delete_nil_eq {c : Cache V} {k : String} (hm : c.cache = none) :
    c.delete k = some c := by
  simp [Cache.delete, hm]

theorem delete_miss_eq {c : Cache V} {m : List (String × Nat)} {k : String}
    (hm : c.cache = some m) (hid : findId k m = none) :
    c.delete k = some c := by
  simp [Cache.delete, hm, hid]

theorem delete_hit_eq {c : Cache V} {m : List (String × Nat)} {k : String} {i : Nat}
    (hm : c.cache = some m) (hid : findId k m = some i) :
    c.delete k = removeElement c i := by
  simp [Cache.delete, hm, hid]

theorem len_eq {c : Cache V} {m : List (String × Nat)} {lru : List Nat}
    (hm : c.cache = some m) (hl : c.lruIndex = some lru) :
    c.len = some lru.length := by
  simp [Cache.len, hm, hl]

theorem len_nil_eq {c : Cache V} (hm : c.cache = none) : c.len = some 0 := by
  simp [Cache.len, hm]

theorem cleanExpiredStep_nil_eq {c : Cache V} {now : Nat}
    (httl : c.ttlIndex = []) :
    cleanExpiredStep c now = some (.sleepFor (c.expiration : Int), c) := by
  simp [cleanExpiredStep, httl]

theorem cleanExpiredStep_expired_eq {c : Cache V} {now i : Nat}
    {rest : List Nat} {en : Entry V}
    (httl : c.ttlIndex = i :: rest) (he : findEntry i c.heap = some en)
    (hlt : en.timestamp + c.expiration < now) :
    cleanExpiredStep c now =
      (removeElement c i).map (fun c2 => (.removeExpired i, c2)) := by
  simp [cleanExpiredStep, httl, he, hlt]

theorem cleanExpiredStep_fresh_eq {c : Cache V} {now i : Nat}
    {rest : List Nat} {en : Entry V}
    (httl : c.ttlIndex = i :: rest) (he : findEntry i c.heap = some en)
    (hge : ¬ en.timestamp + c.expiration < now) :
    cleanExpiredStep c now =
      some (.sleepFor ((now : Int) - ((en.timestamp + c.expiration : Nat) : Int)), c) := by
  simp [cleanExpiredStep, httl, he, hge]

theorem cleanExpiredStep_dangling_eq {c : Cache V} {now i : Nat}
    {rest : List Nat}
    (httl : c.ttlIndex = i :: rest) (he : findEntry i c.heap = none) :
    cleanExpiredStep c now = none := by
  simp [cleanExpiredStep, httl, he]

theorem eraseKey_of_findId_none {k : String} {m : List (String × Nat)}
    (h : findId k m = none) : eraseKey k m = m := by
  apply List.filter_eq_self.mpr
  intro p hp
  have := findId_eq_none_iff.mp h p hp
  simp [this]

theorem getLast?_cons_ne_none {i : Nat} {l : List Nat} :
    (i :: l).getLast? ≠ none := by
  induction l generalizing i with
  | nil => simp [List.getLast?_singleton]
  | cons j rest ih => rw [List.getLast?_cons_cons]; exact ih

theorem WF.parts {c : Cache V} (w : WF c) {m : List (String × Nat)}
    (hm : c.cache = some m) :
    ∃ lru, c.lruIndex = some lru ∧ WFparts c m lru := by
  unfold WF at w
  rw [hm] at w
  rcases hl : c.lruIndex with _ | lru
  · rw [hl] at w
    exact absurd w id
  · rw [hl] at w
    exact ⟨lru, rfl, w⟩

theorem WF.intro {c : Cache V} {m : List (String × Nat)} {lru : List Nat}
    (hm : c.cache = some m) (hl : c.lruIndex = some lru)
    (w : WFparts c m lru) : WF c := by
  unfold WF
  rw [hm, hl]
  exact w

theorem WF.of_nil {c : Cache V} (hm : c.cache = none) : WF c := by
  unfold WF
  rw [hm]
  trivial

/-!
## The invariant is preserved
-/

/-- removing a live element keeps the invariant: the recency list loses
exactly that id, the map loses exactly its key, and (with TTL enabled) the
expiry queue loses exactly that id. -/
theorem removeElement_WF {c : Cache V} {m : List (String × Nat)} {lru : List Nat}
    (hm : c.cache = some m) (hl : c.lruIndex = some lru) (w : WFparts c m lru)
    {i : Nat} (hi : i ∈ lru) :
    ∃ en c', findEntry i c.heap = some en ∧
      removeElement c i = some c' ∧
      c' = { c with lruIndex := some (removeFirst i lru)
                    ttlIndex :=
                      if 0 < c.expiration then removeFirst i c.ttlIndex else c.ttlIndex
                    cache := some (eraseKey en.key m) } ∧
      WFparts c' (eraseKey en.key m) (removeFirst i lru) := by
  obtain ⟨en, he, henm, _⟩ := w.resolve hi
  obtain ⟨hnd, hkeys, hcorr, hsurj, hfresh, httl⟩ := w
  refine ⟨en, _, he, removeElement_eq hl he, by rw [hm]; rfl, ?_⟩
  refine ⟨?_, ?_, ?_, ?_, ?_, ?_⟩
  · exact List.Nodup.sublist (removeFirst_sublist i lru) hnd
  · exact List.Nodup.sublist
      (List.Sublist.map Prod.fst (eraseKey_sublist en.key m)) hkeys
  · intro p hp
    obtain ⟨hpm, hpk⟩ := mem_eraseKey.mp hp
    obtain ⟨hplru, hpkey⟩ := hcorr p hpm
    have hpi : p.2 ≠ i := by
      intro hpi
      rw [hpi, he] at hpkey
      exact hpk (Option.some.inj hpkey).symm
    exact ⟨mem_removeFirst_of_ne hplru hpi, hpkey⟩
  · intro j hj
    obtain ⟨hjl, hji⟩ := (mem_removeFirst_iff hnd).mp hj
    obtain ⟨enj, hej, hejm, _⟩ :=
      WFparts.resolve ⟨hnd, hkeys, hcorr, hsurj, hfresh, httl⟩ hjl
    have hk : enj.key ≠ en.key := by
      intro hk
      exact hji (WFparts.key_inj ⟨hnd, hkeys, hcorr, hsurj, hfresh, httl⟩
        hjl hi hej he hk)
    exact List.mem_map.mpr ⟨(enj.key, j), mem_eraseKey.mpr ⟨hejm, hk⟩, rfl⟩
  · intro j hj
    exact hfresh j (mem_of_mem_removeFirst hj)
  · intro hexp
    obtain ⟨hpw, hsub, hsub'⟩ := httl hexp
    have httlnd : c.ttlIndex.Nodup := hpw.imp (fun hab => Nat.ne_of_lt hab)
    simp only [if_pos hexp]
    refine ⟨List.Pairwise.sublist (removeFirst_sublist i c.ttlIndex) hpw, ?_, ?_⟩
    · intro j hj
      obtain ⟨hjt, hji⟩ := (mem_removeFirst_iff httlnd).mp hj
      exact mem_removeFirst_of_ne (hsub j hjt) hji
    · intro j hj
      obtain ⟨hjl, hji⟩ := (mem_removeFirst_iff hnd).mp hj
      exact mem_removeFirst_of_ne (hsub' j hjl) hji

/-- inserting an absent key keeps the invariant (before the eviction check):
the fresh id goes to the front of the recency list, to the tail of the expiry
queue, and under the new key in the map. -/
theorem inserted_WF {c : Cache V} {m : List (String × Nat)} {lru : List Nat}
    {k : String} {v : V} {now : Nat}
    (w : WFparts c m lru) (hid : findId k m = none) :
    WFparts (inserted c k v now m lru)
      ((k, c.nextId) :: eraseKey k m) (c.nextId :: lru) := by
  obtain ⟨hnd, hkeys, hcorr, hsurj, hfresh, httl⟩ := w
  have hknotin : ∀ p ∈ m, p.1 ≠ k := findId_eq_none_iff.mp hid
  rw [eraseKey_of_findId_none hid]
  refine ⟨?_, ?_, ?_, ?_, ?_, ?_⟩
  · exact List.nodup_cons.mpr
      ⟨fun h => Nat.lt_irrefl _ (hfresh _ h), hnd⟩
  · refine List.nodup_cons.mpr ⟨?_, hkeys⟩
    intro hk
    obtain ⟨p, hp, hpk⟩ := List.mem_map.mp hk
    exact hknotin p hp hpk
  · intro p hp
    rcases List.mem_cons.mp hp with hp | hp
    · subst hp
      exact ⟨List.mem_cons_self _ _, by simp [inserted, findEntry_cons_self]⟩
    · obtain ⟨hplru, hpkey⟩ := hcorr p hp
      have hne : c.nextId ≠ p.2 := fun h => Nat.lt_irrefl _ (h ▸ hfresh _ hplru)
      refine ⟨List.mem_cons_of_mem _ hplru, ?_⟩
      show (findEntry p.2 ((c.nextId, ⟨k, v, now⟩) :: c.heap)).map Entry.key = some p.1
      rw [findEntry_cons_ne hne]
      exact hpkey
  · intro j hj
    rcases List.mem_cons.mp hj with hj | hj
    · exact List.mem_map.mpr ⟨(k, c.nextId), List.mem_cons_self _ _, hj.symm⟩
    · obtain ⟨p, hp, hpj⟩ := List.mem_map.mp (hsurj j hj)
      exact List.mem_map.mpr ⟨p, List.mem_cons_of_mem _ hp, hpj⟩
  · intro j hj
    show j < c.nextId + 1
    rcases List.mem_cons.mp hj with hj | hj
    · omega
    · have := hfresh j hj
      omega
  · intro hexp
    have hexp' : 0 < c.expiration := hexp
    obtain ⟨hpw, hsub, hsub'⟩ := httl hexp'
    show (if 0 < c.expiration then c.ttlIndex ++ [c.nextId] else c.ttlIndex).Pairwise (· < ·) ∧
      (∀ j ∈ (if 0 < c.expiration then c.ttlIndex ++ [c.nextId] else c.ttlIndex),
        j ∈ c.nextId :: lru) ∧
      (∀ j ∈ c.nextId :: lru,
        j ∈ (if 0 < c.expiration then c.ttlIndex ++ [c.nextId] else c.ttlIndex))
    rw [if_pos hexp']
    refine ⟨?_, ?_, ?_⟩
    · rw [List.pairwise_append]
      exact ⟨hpw, List.pairwise_singleton _ _,
        fun a ha b hb => by
          rw [List.mem_singleton.mp hb]
          exact hfresh a (hsub a ha)⟩
    · intro j hj
      rcases List.mem_append.mp hj with hj | hj
      · exact List.mem_cons_of_mem _ (hsub j hj)
      · rw [List.mem_singleton.mp hj]
        exact List.mem_cons_self _ _
    · intro j hj
      rcases List.mem_cons.mp hj with hj | hj
      · exact List.mem_append.mpr (Or.inr (by simp [hj]))
      · exact List.mem_append.mpr (Or.inl (hsub' j hj))

theorem removeOldest_eq_last {c : Cache V} {m : List (String × Nat)}
    {lru : List Nat} {b : Nat}
    (hm : c.cache = some m) (hl : c.lruIndex = some lru)
    (hb : lru.getLast? = some b) :
    removeOldest c = removeElement c b := by
  simp [removeOldest, hm, hl, hb]

/-- `Set` preserves the invariant. -/
theorem set_WF {c c' : Cache V} {k : String} {v : V} {now : Nat}
    (w : WF c) (h : c.set k v now = some c') : WF c' := by
  rcases hm : c.cache with _ | m
  · rw [set_nil_eq hm] at h
    cases h
    refine WF.intro rfl rfl ⟨?_, ?_, ?_, ?_, ?_, ?_⟩
    · simp
    · simp
    · intro p hp
      rw [List.mem_singleton.mp hp]
      exact ⟨List.mem_cons_self _ _, by simp [findEntry_cons_self]⟩
    · intro j hj
      rw [List.mem_singleton.mp hj]
      exact List.mem_map.mpr ⟨(k, c.nextId), List.mem_cons_self _ _, rfl⟩
    · intro j hj
      rw [List.mem_singleton.mp hj]
      exact Nat.lt_succ_self _
    · intro hexp
      have hexp' : 0 < c.expiration := hexp
      show (if 0 < c.expiration then [c.nextId] else c.ttlIndex).Pairwise (· < ·) ∧
        (∀ j ∈ (if 0 < c.expiration then [c.nextId] else c.ttlIndex), j ∈ [c.nextId]) ∧
        (∀ j ∈ [c.nextId], j ∈ (if 0 < c.expiration then [c.nextId] else c.ttlIndex))
      rw [if_pos hexp']
      refine ⟨List.pairwise_singleton _ _, ?_, ?_⟩ <;> simp
  · obtain ⟨lru, hl, w⟩ := w.parts hm
    rcases hid : findId k m with _ | i
    · rw [set_miss_eq hm hl hid] at h
      by_cases hcap : c.maxEntries ≠ 0 ∧ c.maxEntries < lru.length + 1
      · rw [if_pos hcap] at h
        have wi := @inserted_WF V c m lru k v now w hid
        rcases hb : (c.nextId :: lru).getLast? with _ | b
        · exact absurd hb getLast?_cons_ne_none
        · rw [removeOldest_eq_last rfl rfl hb] at h
          obtain ⟨en, c'', _, hrm, hceq, wrm⟩ :=
            removeElement_WF rfl rfl wi (mem_of_getLast?_eq hb)
          rw [hrm] at h
          cases h
          exact WF.intro (by rw [hceq]) (by rw [hceq]) wrm
      · rw [if_neg hcap] at h
        cases h
        exact WF.intro rfl rfl (inserted_WF w hid)
    · rw [set_hit_eq hm hl hid] at h
      cases h
      have him : i ∈ lru := (w.2.2.1 _ (findId_mem hid)).1
      refine WF.intro hm rfl ⟨?_, ?_, ?_, ?_, ?_, ?_⟩
      · exact nodup_moveToFront w.1
      · exact w.2.1
      · intro p hp
        obtain ⟨hplru, hpkey⟩ := w.2.2.1 p hp
        refine ⟨(mem_moveToFront_iff him).mpr hplru, ?_⟩
        show (findEntry p.2 (updateEntry i v now c.heap)).map Entry.key = some p.1
        rw [findEntry_updateEntry_key]
        exact hpkey
      · intro j hj
        exact w.2.2.2.1 j ((mem_moveToFront_iff him).mp hj)
      · intro j hj
        exact w.2.2.2.2.1 j ((mem_moveToFront_iff him).mp hj)
      · intro hexp
        obtain ⟨hpw, hsub, hsub'⟩ := w.2.2.2.2.2 hexp
        exact ⟨hpw,
          fun j hj => (mem_moveToFront_iff him).mpr (hsub j hj),
          fun j hj => hsub' j ((mem_moveToFront_iff him).mp hj)⟩

/-- `Get` preserves the invariant. -/
theorem get_WF {c c' : Cache V} {k : String} {r : Option V} {b : Bool}
    (w : WF c) (h : c.get k = some (r, b, c')) : WF c' := by
  rcases hm : c.cache with _ | m
  · rw [get_nil_eq hm] at h
    cases h
    exact w
  · obtain ⟨lru, hl, wp⟩ := w.parts hm
    rcases hid : findId k m with _ | i
    · rw [get_miss_eq hm hid] at h
      cases h
      exact w
    · have him : i ∈ lru := (wp.2.2.1 _ (findId_mem hid)).1
      obtain ⟨en, he, _, _⟩ := wp.resolve him
      rw [get_hit_eq hm hl hid he] at h
      cases h
      refine WF.intro hm rfl ⟨?_, ?_, ?_, ?_, ?_, ?_⟩
      · exact nodup_moveToFront wp.1
      · exact wp.2.1
      · intro p hp
        obtain ⟨hplru, hpkey⟩ := wp.2.2.1 p hp
        exact ⟨(mem_moveToFront_iff him).mpr hplru, hpkey⟩
      · intro j hj
        exact wp.2.2.2.1 j ((mem_moveToFront_iff him).mp hj)
      · intro j hj
        exact wp.2.2.2.2.1 j ((mem_moveToFront_iff him).mp hj)
      · intro hexp
        obtain ⟨hpw, hsub, hsub'⟩ := wp.2.2.2.2.2 hexp
        exact ⟨hpw,
          fun j hj => (mem_moveToFront_iff him).mpr (hsub j hj),
          fun j hj => hsub' j ((mem_moveToFront_iff him).mp hj)⟩

/-- `Delete` preserves the invariant. -/
theorem delete_WF {c c' : Cache V} {k : String}
    (w : WF c) (h : c.delete k = some c') : WF c' := by
  rcases hm : c.cache with _ | m
  · rw [delete_nil_eq hm] at h
    cases h
    exact w
  · obtain ⟨lru, hl, wp⟩ := w.parts hm
    rcases hid : findId k m with _ | i
    · rw [delete_miss_eq hm hid] at h
      cases h
      exact w
    · have him : i ∈ lru := (wp.2.2.1 _ (findId_mem hid)).1
      rw [delete_hit_eq hm hid] at h
      obtain ⟨en, c'', _, hrm, hceq, wrm⟩ := removeElement_WF hm hl wp him
      rw [hrm] at h
      cases h
      exact WF.intro (by rw [hceq]) (by rw [hceq]) wrm

/-- `Flush` preserves the invariant (indeed establishes it from anything). -/
theorem flush_WF (c : Cache V) : WF c.flush := by
  refine WF.intro rfl rfl ⟨?_, ?_, ?_, ?_, ?_, ?_⟩
  · simp
  · simp
  · intro p hp
    simp at hp
  · intro j hj
    simp at hj
  · intro j hj
    simp at hj
  · intro hexp
    have hexp' : 0 < c.expiration := hexp
    show (if 0 < c.expiration then ([] : List Nat) else c.ttlIndex).Pairwise (· < ·) ∧
      (∀ j ∈ (if 0 < c.expiration then ([] : List Nat) else c.ttlIndex), j ∈ ([] : List Nat)) ∧
      (∀ j ∈ ([] : List Nat), j ∈ (if 0 < c.expiration then ([] : List Nat) else c.ttlIndex))
    rw [if_pos hexp']
    refine ⟨List.Pairwise.nil, ?_, ?_⟩ <;> simp

/-- one sweeper iteration preserves the invariant (the sweeper only exists
when TTL is enabled). -/
theorem cleanExpiredStep_WF {c c' : Cache V} {now : Nat} {a : SweepAction}
    (w : WF c) (hexp : 0 < c.expiration)
    (h : cleanExpiredStep c now = some (a, c')) : WF c' := by
  rcases httl : c.ttlIndex with _ | ⟨i, rest⟩
  · rw [cleanExpiredStep_nil_eq httl] at h
    cases h
    exact w
  · rcases hm : c.cache with _ | m
    · rcases he : findEntry i c.heap with _ | en
      · rw [cleanExpiredStep_dangling_eq httl he] at h
        cases h
      · by_cases hlt : en.timestamp + c.expiration < now
        · rw [cleanExpiredStep_expired_eq httl he hlt] at h
          rcases hl : c.lruIndex with _ | lru
          · rw [show removeElement c i = none by simp [removeElement, hl]] at h
            cases h
          · rw [removeElement_eq hl he] at h
            simp only [Option.map_some'] at h
            cases h
            exact WF.of_nil (by simp [hm])
        · rw [cleanExpiredStep_fresh_eq httl he hlt] at h
          cases h
          exact w
    · obtain ⟨lru, hl, wp⟩ := w.parts hm
      have hit : i ∈ c.ttlIndex := httl ▸ List.mem_cons_self _ _
      have him : i ∈ lru := (wp.2.2.2.2.2 hexp).2.1 i hit
      obtain ⟨en, he, _, _⟩ := wp.resolve him
      by_cases hlt : en.timestamp + c.expiration < now
      · rw [cleanExpiredStep_expired_eq httl he hlt] at h
        obtain ⟨en', c'', he', hrm, hceq, wrm⟩ := removeElement_WF hm hl wp him
        rw [hrm] at h
        simp only [Option.map_some'] at h
        cases h
        exact WF.intro (by rw [hceq]) (by rw [hceq]) wrm
      · rw [cleanExpiredStep_fresh_eq httl he hlt] at h
        cases h
        exact w

/-!
## The claims
-/

/-- C8: `Get` on an absent key (nil map or key not indexed) returns the zero
value and `false` without error and without changing any cache state, and
`Delete` on an absent key is a silent no-op returning the state unchanged. -/
theorem claim_C8 {c : Cache V} {k : String}
    (habs : c.cache = none ∨ ∃ m, c.cache = some m ∧ findId k m = none) :
    c.get k = some (none, false, c) ∧ c.delete k = some c := by
  rcases habs with hm | ⟨m, hm, hid⟩
  · exact ⟨get_nil_eq hm, delete_nil_eq hm⟩
  · exact ⟨get_miss_eq hm hid, delete_miss_eq hm hid⟩

/-- C8 witness: on an empty initialized cache (and so on any absent key) both
operations are silent no-ops. -/
theorem claim_C8_witness :
    (Cache.new Nat 2 0).get "missing" = some (none, false, Cache.new Nat 2 0) ∧
      (Cache.new Nat 2 0).delete "missing" = some (Cache.new Nat 2 0) :=
  claim_C8 (Or.inr ⟨[], rfl, rfl⟩)

/-- C9: after `Flush`, `Len` is 0 and `Get` misses on every key, whatever the
prior contents. -/
theorem claim_C9 (c : Cache V) (k : String) :
    c.flush.len = some 0 ∧ c.flush.get k = some (none, false, c.flush) := by
  constructor
  · rw [len_eq (m := []) rfl rfl]
    rfl
  · exact get_miss_eq (m := []) rfl rfl

/-- C10: every public operation is total on a cache whose map is nil (the
zero value): `Get` misses, `Delete` and `Len` answer without touching the nil
map, and `Set` lazily initializes the map, the recency list and (when TTL is
enabled) the expiry queue before inserting — none returns the panic value
`none`. -/
theorem claim_C10 {c : Cache V} {k : String} {v : V} {now : Nat}
    (hm : c.cache = none) :
    c.get k = some (none, false, c) ∧
    c.delete k = some c ∧
    c.len = some 0 ∧
    c.set k v now = some
      { c with heap := (c.nextId, ⟨k, v, now⟩) :: c.heap
               lruIndex := some [c.nextId]
               ttlIndex := if 0 < c.expiration then [c.nextId] else c.ttlIndex
               cache := some [(k, c.nextId)]
               nextId := c.nextId + 1 } :=
  ⟨get_nil_eq hm, delete_nil_eq hm, len_nil_eq hm, set_nil_eq hm⟩

/-- C10 witness: the zero-value cache at a concrete key. -/
theorem claim_C10_witness :
    (Cache.zero Nat).get "k" = some (none, false, Cache.zero Nat) ∧
    (Cache.zero Nat).delete "k" = some (Cache.zero Nat) ∧
    (Cache.zero Nat).len = some 0 ∧
    (Cache.zero Nat).set "k" 3 1 = some
      { Cache.zero Nat with heap := [(0, ⟨"k", 3, 1⟩)]
                            lruIndex := some [0]
                            ttlIndex := if 0 < (Cache.zero Nat).expiration
                                        then [0] else (Cache.zero Nat).ttlIndex
                            cache := some [("k", 0)]
                            nextId := 1 } :=
  claim_C10 rfl

/-- C4 (code bug): with TTL 10, an entry written at instant 0 and a sweeper
iteration at instant 5 — the head is not yet expired, so per the spec the
sweeper should sleep `expiry - now = 5`; the code instead computes
`time.Now().Sub(exp) = now - expiry = -5`, a negative duration, so
`time.Sleep` returns immediately and the sweeper busy-waits. -/
theorem claim_C4_code_bug :
    ((Cache.new Nat 0 10).set "x" 7 0).bind
        (fun c => (cleanExpiredStep c 5).map Prod.fst) =
      some (SweepAction.sleepFor (-5)) ∧
    (-5 : Int) < 0 ∧ ((10 : Int) - 5) = 5 := by
  decide

/-- C3 (counterexample): with TTL 10, key `x` written at instant 0 and
re-written at instant 5, the expiry the sweeper computes for the head entry is
15 = last-write (5) + TTL (10), not 10 = original insertion (0) + TTL: at
instant 12 (past the claimed expiry 10) the sweeper does not remove the entry
but computes the not-yet-expired branch, and the head entry's recorded
timestamp is 5, the last-write instant. -/
theorem claim_C3_counterexample :
    ((((Cache.new Nat 0 10).set "x" 7 0).bind (fun c => c.set "x" 8 5)).bind
        (fun c2 => (cleanExpiredStep c2 12).map Prod.fst) =
      some (SweepAction.sleepFor (-3))) ∧
    ((((Cache.new Nat 0 10).set "x" 7 0).bind (fun c => c.set "x" 8 5)).bind
        (fun c2 => c2.ttlIndex.head?.bind
          (fun i => (findEntry i c2.heap).map Entry.timestamp)) = some 5) ∧
    (5 : Nat) + 10 = 15 ∧ ¬ ((0 : Nat) + 10 = 15) := by
  decide

/-- C3 (amended): re-`Set` of a present key refreshes the shared entry record
in place, so the expiry instant the sweeper computes for it is its last-write
time plus the TTL; only the entry's position in the expiry queue stays at its
original insertion slot (the queue is unchanged). -/
theorem claim_C3_amended {c c' : Cache V} {m : List (String × Nat)}
    {k : String} {v : V} {now i : Nat}
    (w : WF c) (hm : c.cache = some m) (hid : findId k m = some i)
    (h : c.set k v now = some c') :
    c'.ttlIndex = c.ttlIndex ∧
    c'.expiration = c.expiration ∧
    ∃ en, findEntry i c'.heap = some en ∧ en.timestamp = now ∧
      en.timestamp + c'.expiration = now + c.expiration := by
  obtain ⟨lru, hl, wp⟩ := w.parts hm
  rw [set_hit_eq hm hl hid] at h
  cases h
  have him : i ∈ lru := (wp.2.2.1 _ (findId_mem hid)).1
  obtain ⟨en, he, _, _⟩ := wp.resolve him
  refine ⟨rfl, rfl, ?_⟩
  refine ⟨{ en with value := v, timestamp := now }, ?_, rfl, rfl⟩
  show findEntry i (updateEntry i v now c.heap) = _
  rw [findEntry_updateEntry, he]
  simp

/-- C3 amended witness: TTL 10, `x` written at 0, re-written at 5 — the
recorded timestamp becomes 5 and the computed expiry 15. -/
theorem claim_C3_amended_witness :
    WF (⟨0, 10, [(0, ⟨"x", 7, 0⟩)], some [0], [0], some [("x", 0)], 1⟩ : Cache Nat) ∧
    (⟨0, 10, [(0, ⟨"x", 7, 0⟩)], some [0], [0], some [("x", 0)], 1⟩ : Cache Nat).ttlIndex = [0] ∧
    (∃ c', (⟨0, 10, [(0, ⟨"x", 7, 0⟩)], some [0], [0], some [("x", 0)], 1⟩ : Cache Nat).set "x" 8 5
        = some c' ∧
      c'.ttlIndex = [0] ∧
      ∃ en, findEntry 0 c'.heap = some en ∧ en.timestamp = 5 ∧
        en.timestamp + c'.expiration = 5 + 10) := by
  refine ⟨by decide, by decide, ?_⟩
  have hset : (⟨0, 10, [(0, ⟨"x", 7, 0⟩)], some [0], [0], some [("x", 0)], 1⟩ : Cache Nat).set "x" 8 5
      = some (⟨0, 10, [(0, ⟨"x", 8, 5⟩)], some [0], [0], some [("x", 0)], 1⟩ : Cache Nat) := by
    decide
  have hid : findId "x" [("x", (0 : Nat))] = some 0 := rfl
  obtain ⟨h1, h2, en, h3, h4, h5⟩ := claim_C3_amended (by decide) rfl hid hset
  exact ⟨_, hset, h1, en, h3, h4, h5⟩

/-- C6: `Set` of an already-present key refreshes that entry's value and
timestamp in place and promotes it to the front of the recency list, changing
nothing else: map, expiry queue (so the entry's expiry position does not
move), capacity, TTL, id counter, entry count (so no eviction even at
capacity) and every other entry are untouched. -/
theorem claim_C6 {c c' : Cache V} {m : List (String × Nat)}
    {k : String} {v : V} {now i : Nat}
    (w : WF c) (hm : c.cache = some m) (hid : findId k m = some i)
    (h : c.set k v now = some c') :
    c'.cache = c.cache ∧
    c'.ttlIndex = c.ttlIndex ∧
    c'.maxEntries = c.maxEntries ∧
    c'.expiration = c.expiration ∧
    c'.nextId = c.nextId ∧
    c'.len = c.len ∧
    (∃ lru, c.lruIndex = some lru ∧
      c'.lruIndex = some (i :: removeFirst i lru)) ∧
    (∃ en, findEntry i c.heap = some en ∧
      findEntry i c'.heap = some { en with value := v, timestamp := now }) ∧
    (∀ j, j ≠ i → findEntry j c'.heap = findEntry j c.heap) := by
  obtain ⟨lru, hl, wp⟩ := w.parts hm
  rw [set_hit_eq hm hl hid] at h
  cases h
  have him : i ∈ lru := (wp.2.2.1 _ (findId_mem hid)).1
  obtain ⟨en, he, _, _⟩ := wp.resolve him
  refine ⟨rfl, rfl, rfl, rfl, rfl, ?_, ⟨lru, hl, rfl⟩, ⟨en, he, ?_⟩, ?_⟩
  · have hm' : ({ c with lruIndex := some (i :: removeFirst i lru)
                         heap := updateEntry i v now c.heap } : Cache V).cache = some m := hm
    rw [len_eq hm' rfl, len_eq hm hl, length_moveToFront him]
  · show findEntry i (updateEntry i v now c.heap) = _
    rw [findEntry_updateEntry, he]
    simp
  · intro j hj
    show findEntry j (updateEntry i v now c.heap) = _
    rw [findEntry_updateEntry]
    cases findEntry j c.heap <;> simp [hj]

/-- C6 witness: a full one-slot cache re-`Set` at its only key. -/
theorem claim_C6_witness :
    WF (⟨1, 10, [(0, ⟨"x", 7, 0⟩)], some [0], [0], some [("x", 0)], 1⟩ : Cache Nat) ∧
    ((⟨1, 10, [(0, ⟨"x", 7, 0⟩)], some [0], [0], some [("x", 0)], 1⟩ : Cache Nat).set "x" 8 5 =
      some (⟨1, 10, [(0, ⟨"x", 8, 5⟩)], some [0], [0], some [("x", 0)], 1⟩ : Cache Nat)) ∧
    ((⟨1, 10, [(0, ⟨"x", 8, 5⟩)], some [0], [0], some [("x", 0)], 1⟩ : Cache Nat).cache =
        (⟨1, 10, [(0, ⟨"x", 7, 0⟩)], some [0], [0], some [("x", 0)], 1⟩ : Cache Nat).cache ∧
      (⟨1, 10, [(0, ⟨"x", 8, 5⟩)], some [0], [0], some [("x", 0)], 1⟩ : Cache Nat).ttlIndex =
        (⟨1, 10, [(0, ⟨"x", 7, 0⟩)], some [0], [0], some [("x", 0)], 1⟩ : Cache Nat).ttlIndex ∧
      (⟨1, 10, [(0, ⟨"x", 8, 5⟩)], some [0], [0], some [("x", 0)], 1⟩ : Cache Nat).len =
        (⟨1, 10, [(0, ⟨"x", 7, 0⟩)], some [0], [0], some [("x", 0)], 1⟩ : Cache Nat).len ∧
      findEntry 0 (⟨1, 10, [(0, ⟨"x", 8, 5⟩)], some [0], [0], some [("x", 0)], 1⟩ : Cache Nat).heap =
        some ⟨"x", 8, 5⟩) := by
  have hset : (⟨1, 10, [(0, ⟨"x", 7, 0⟩)], some [0], [0], some [("x", 0)], 1⟩ : Cache Nat).set "x" 8 5 =
      some (⟨1, 10, [(0, ⟨"x", 8, 5⟩)], some [0], [0], some [("x", 0)], 1⟩ : Cache Nat) := by
    decide
  have hid : findId "x" [("x", (0 : Nat))] = some 0 := rfl
  obtain ⟨h1, h2, _, _, _, h6, _, ⟨en, he, he2⟩, _⟩ := claim_C6 (by decide) rfl hid hset
  refine ⟨by decide, hset, h1, h2, h6, ?_⟩
  have : en = (⟨"x", 7, 0⟩ : Entry Nat) := by
    have : findEntry 0 [(0, (⟨"x", 7, 0⟩ : Entry Nat))] = some ⟨"x", 7, 0⟩ := rfl
    exact Option.some.inj (he.symm.trans this)
  rw [this] at he2
  exact he2

/-- C7: `Set(k, v)` immediately followed by `Get(k)` — with no intervening
operation, eviction or expiry — answers `(v, true)` on every well-formed
state: through lazy initialization, through a refresh of a present key, and
through an insert that evicts (the evicted entry is the back of the recency
list, never the entry just written). -/
theorem claim_C7 {c c' : Cache V} {k : String} {v : V} {now : Nat}
    (w : WF c) (h : c.set k v now = some c') :
    ∃ c'', c'.get k = some (some v, true, c'') := by
  rcases hm : c.cache with _ | m
  · rw [set_nil_eq hm] at h
    cases h
    refine ⟨_, get_hit_eq (m := [(k, c.nextId)]) rfl rfl ?_ findEntry_cons_self⟩
    rw [findId_cons, if_pos rfl]
  · obtain ⟨lru, hl, wp⟩ := w.parts hm
    rcases hid : findId k m with _ | i
    · rw [set_miss_eq hm hl hid] at h
      by_cases hcap : c.maxEntries ≠ 0 ∧ c.maxEntries < lru.length + 1
      · rw [if_pos hcap] at h
        have wi := @inserted_WF V c m lru k v now wp hid
        rcases hlru : lru with _ | ⟨x, xs⟩
        · rw [hlru] at hcap
          simp at hcap
        · rcases hb : (x :: xs).getLast? with _ | b
          · exact absurd hb getLast?_cons_ne_none
          · have hb' : (c.nextId :: lru).getLast? = some b := by
              rw [hlru, List.getLast?_cons_cons, hb]
            rw [← hlru] at hb
            rw [removeOldest_eq_last rfl rfl hb'] at h
            have hbmem : b ∈ c.nextId :: lru := mem_of_getLast?_eq hb'
            obtain ⟨en', c'', he', hrm, hceq, wrm⟩ := removeElement_WF rfl rfl wi hbmem
            rw [hrm] at h
            cases h
            have hblru : b ∈ lru := mem_of_getLast?_eq hb
            have hbne : b ≠ c.nextId := by
              have := wp.2.2.2.2.1 b hblru
              omega
            have he'' : findEntry b c.heap = some en' := by
              have hcons :
                  findEntry b ((c.nextId, (⟨k, v, now⟩ : Entry V)) :: c.heap) = some en' := he'
              rwa [findEntry_cons_ne (fun hh => hbne hh.symm)] at hcons
            obtain ⟨enb, heb, henbm, _⟩ := wp.resolve hblru
            have hen'eq : en' = enb := Option.some.inj (he''.symm.trans heb)
            have hkne : k ≠ en'.key := by
              intro hkk
              rw [hen'eq] at hkk
              exact findId_eq_none_iff.mp hid (enb.key, b) henbm hkk.symm
            have hm'' : c'.cache =
                some (eraseKey en'.key ((k, c.nextId) :: eraseKey k m)) := by
              rw [hceq]
            have hl'' : c'.lruIndex =
                some (removeFirst b (c.nextId :: lru)) := by
              rw [hceq]
            have hid'' :
                findId k (eraseKey en'.key ((k, c.nextId) :: eraseKey k m)) =
                  some c.nextId := by
              rw [findId_eraseKey_ne hkne, findId_cons, if_pos rfl]
            have henew : findEntry c.nextId c'.heap = some ⟨k, v, now⟩ := by
              rw [hceq]
              exact findEntry_cons_self
            exact ⟨_, get_hit_eq hm'' hl'' hid'' henew⟩
      · rw [if_neg hcap] at h
        cases h
        refine ⟨_, get_hit_eq (m := (k, c.nextId) :: eraseKey k m) rfl rfl ?_
          findEntry_cons_self⟩
        rw [findId_cons, if_pos rfl]
    · rw [set_hit_eq hm hl hid] at h
      cases h
      have him : i ∈ lru := (wp.2.2.1 _ (findId_mem hid)).1
      obtain ⟨en, he, _, _⟩ := wp.resolve him
      have hm' : ({ c with lruIndex := some (i :: removeFirst i lru)
                           heap := updateEntry i v now c.heap } : Cache V).cache
          = some m := hm
      have he' : findEntry i (updateEntry i v now c.heap) =
          some { en with value := v, timestamp := now } := by
        rw [findEntry_updateEntry, he]
        simp
      exact ⟨_, get_hit_eq hm' rfl hid he'⟩

/-- C7 witness: a full two-slot cache receiving a third key — the new key is
still retrievable right after the insert-with-eviction. -/
theorem claim_C7_witness :
    WF (⟨2, 0, [(1, ⟨"b", 5, 1⟩), (0, ⟨"a", 4, 0⟩)], some [1, 0], [],
        some [("a", 0), ("b", 1)], 2⟩ : Cache Nat) ∧
    (∃ c' c'', (⟨2, 0, [(1, ⟨"b", 5, 1⟩), (0, ⟨"a", 4, 0⟩)], some [1, 0], [],
        some [("a", 0), ("b", 1)], 2⟩ : Cache Nat).set "c" 6 2 = some c' ∧
      c'.get "c" = some (some 6, true, c'')) := by
  refine ⟨by decide, ?_⟩
  have hset : (⟨2, 0, [(1, ⟨"b", 5, 1⟩), (0, ⟨"a", 4, 0⟩)], some [1, 0], [],
      some [("a", 0), ("b", 1)], 2⟩ : Cache Nat).set "c" 6 2 =
      some (⟨2, 0, [(2, ⟨"c", 6, 2⟩), (1, ⟨"b", 5, 1⟩), (0, ⟨"a", 4, 0⟩)],
        some [2, 1], [], some [("c", 2), ("b", 1)], 3⟩ : Cache Nat) := by
    decide
  obtain ⟨c'', hg⟩ := claim_C7 (by decide) hset
  exact ⟨_, c'', hset, hg⟩

/-- C5: every public operation (`Set`, `Get`, `Delete`, `Flush`) and the
sweeper's removal step preserve the structural invariant `WF`: the key map
and the recency list describe exactly the same key set, and, when TTL is
enabled, the expiry queue holds exactly the live ids in original insertion
order (strictly increasing allocation ids). -/
theorem claim_C5 {c c1 c2 c3 c4 : Cache V} {k1 k2 k3 : String} {v : V}
    {now now2 : Nat} {r : Option V} {b : Bool} {a : SweepAction}
    (w : WF c) :
    (c.set k1 v now = some c1 → WF c1) ∧
    (c.get k2 = some (r, b, c2) → WF c2) ∧
    (c.delete k3 = some c3 → WF c3) ∧
    WF c.flush ∧
    (0 < c.expiration → cleanExpiredStep c now2 = some (a, c4) → WF c4) :=
  ⟨fun h => set_WF w h, fun h => get_WF w h, fun h => delete_WF w h,
   flush_WF c, fun hexp h => cleanExpiredStep_WF w hexp h⟩

/-- C5 witness: a one-entry TTL cache put through an insert, a hit, a delete,
a flush and an expiring sweep — each result still satisfies the invariant. -/
theorem claim_C5_witness :
    WF (⟨2, 5, [(0, ⟨"x", 7, 0⟩)], some [0], [0], some [("x", 0)], 1⟩ : Cache Nat) ∧
    WF (⟨2, 5, [(1, ⟨"y", 9, 3⟩), (0, ⟨"x", 7, 0⟩)], some [1, 0], [0, 1],
        some [("y", 1), ("x", 0)], 2⟩ : Cache Nat) ∧
    WF (⟨2, 5, [(0, ⟨"x", 7, 0⟩)], some [], [], some [], 1⟩ : Cache Nat) ∧
    WF (⟨2, 5, [(0, ⟨"x", 7, 0⟩)], some [0], [0], some [("x", 0)], 1⟩ : Cache Nat).flush := by
  have h := @claim_C5 Nat
    (⟨2, 5, [(0, ⟨"x", 7, 0⟩)], some [0], [0], some [("x", 0)], 1⟩ : Cache Nat)
    (⟨2, 5, [(1, ⟨"y", 9, 3⟩), (0, ⟨"x", 7, 0⟩)], some [1, 0], [0, 1],
        some [("y", 1), ("x", 0)], 2⟩ : Cache Nat)
    (⟨2, 5, [(0, ⟨"x", 7, 0⟩)], some [0], [0], some [("x", 0)], 1⟩ : Cache Nat)
    (⟨2, 5, [(0, ⟨"x", 7, 0⟩)], some [], [], some [], 1⟩ : Cache Nat)
    (⟨2, 5, [(0, ⟨"x", 7, 0⟩)], some [], [], some [], 1⟩ : Cache Nat)
    "y" "x" "x" 9 3 10 (some 7) true (SweepAction.removeExpired 0) (by decide)
  exact ⟨by decide, h.1 (by decide), h.2.2.1 (by decide), h.2.2.2.1⟩

/-- C1: with capacity `C > 0` and `Len ≤ C` before the call, `Len ≤ C` still
holds immediately after every `Set`; and when the insertion of a new key
makes the size exceed `C` (i.e. the key is absent and the cache is full),
exactly one entry is evicted, so `Len` comes back to its pre-call value. -/
theorem claim_C1 {c c' : Cache V} {k : String} {v : V} {now n : Nat}
    (w : WF c) (hpos : 0 < c.maxEntries)
    (hlen : c.len = some n) (hn : n ≤ c.maxEntries)
    (h : c.set k v now = some c') :
    ∃ n', c'.len = some n' ∧ n' ≤ c.maxEntries ∧
      (∀ mp, c.cache = some mp → findId k mp = none → n = c.maxEntries →
        n' = n) := by
  rcases hm : c.cache with _ | m
  · rw [len_nil_eq hm] at hlen
    have hn0 : n = 0 := (Option.some.inj hlen).symm
    rw [set_nil_eq hm] at h
    cases h
    refine ⟨1, by rw [len_eq (m := [(k, c.nextId)]) rfl rfl]; rfl, hpos, ?_⟩
    intro mp hmp
    exact Option.noConfusion hmp
  · obtain ⟨lru, hl, wp⟩ := w.parts hm
    rw [len_eq hm hl] at hlen
    have hnlen : lru.length = n := Option.some.inj hlen
    rcases hid : findId k m with _ | i
    · rw [set_miss_eq hm hl hid] at h
      by_cases hcap : c.maxEntries ≠ 0 ∧ c.maxEntries < lru.length + 1
      · rw [if_pos hcap] at h
        have wi := @inserted_WF V c m lru k v now wp hid
        rcases hb : (c.nextId :: lru).getLast? with _ | b
        · exact absurd hb getLast?_cons_ne_none
        · rw [removeOldest_eq_last rfl rfl hb] at h
          have hbmem : b ∈ c.nextId :: lru := mem_of_getLast?_eq hb
          obtain ⟨en', c'', he', hrm, hceq, wrm⟩ := removeElement_WF rfl rfl wi hbmem
          rw [hrm] at h
          cases h
          have hm' : c'.cache =
              some (eraseKey en'.key ((k, c.nextId) :: eraseKey k m)) := by
            rw [hceq]
          have hl' : c'.lruIndex = some (removeFirst b (c.nextId :: lru)) := by
            rw [hceq]
          have hlength : (removeFirst b (c.nextId :: lru)).length + 1 =
              (c.nextId :: lru).length := length_removeFirst_of_mem hbmem
          refine ⟨(removeFirst b (c.nextId :: lru)).length,
            len_eq hm' hl', ?_, ?_⟩
          · simp only [List.length_cons] at hlength
            omega
          · intro mp hmp hkmp hfull
            cases hmp
            simp only [List.length_cons] at hlength
            omega
      · rw [if_neg hcap] at h
        cases h
        refine ⟨lru.length + 1,
          by rw [len_eq (m := (k, c.nextId) :: eraseKey k m) rfl rfl]; rfl, ?_, ?_⟩
        · rcases Decidable.not_and_iff_or_not.mp hcap with hc | hc
          · exact absurd (Nat.pos_iff_ne_zero.mp hpos) hc
          · omega
        · intro mp hmp hkmp hfull
          rcases Decidable.not_and_iff_or_not.mp hcap with hc | hc
          · exact absurd (Nat.pos_iff_ne_zero.mp hpos) hc
          · omega
    · rw [set_hit_eq hm hl hid] at h
      cases h
      have him : i ∈ lru := (wp.2.2.1 _ (findId_mem hid)).1
      have hm' : ({ c with lruIndex := some (i :: removeFirst i lru)
                           heap := updateEntry i v now c.heap } : Cache V).cache
          = some m := hm
      refine ⟨(i :: removeFirst i lru).length, len_eq hm' rfl, ?_, ?_⟩
      · rw [length_moveToFront him, hnlen]
        exact hn
      · intro mp hmp hkmp hfull
        cases hmp
        rw [hid] at hkmp
        cases hkmp

/-- C1 witness: a full two-slot cache accepting a third, distinct key stays
at two entries. -/
theorem claim_C1_witness :
    WF (⟨2, 0, [(1, ⟨"b", 5, 1⟩), (0, ⟨"a", 4, 0⟩)], some [1, 0], [],
        some [("a", 0), ("b", 1)], 2⟩ : Cache Nat) ∧
    (∃ n', (⟨2, 0, [(2, ⟨"c", 6, 2⟩), (1, ⟨"b", 5, 1⟩), (0, ⟨"a", 4, 0⟩)],
        some [2, 1], [], some [("c", 2), ("b", 1)], 3⟩ : Cache Nat).len = some n' ∧
      n' ≤ 2 ∧
      (∀ mp, (⟨2, 0, [(1, ⟨"b", 5, 1⟩), (0, ⟨"a", 4, 0⟩)], some [1, 0], [],
          some [("a", 0), ("b", 1)], 2⟩ : Cache Nat).cache = some mp →
        findId "c" mp = none → 2 = 2 → n' = 2)) := by
  have hset : (⟨2, 0, [(1, ⟨"b", 5, 1⟩), (0, ⟨"a", 4, 0⟩)], some [1, 0], [],
      some [("a", 0), ("b", 1)], 2⟩ : Cache Nat).set "c" 6 2 =
      some (⟨2, 0, [(2, ⟨"c", 6, 2⟩), (1, ⟨"b", 5, 1⟩), (0, ⟨"a", 4, 0⟩)],
        some [2, 1], [], some [("c", 2), ("b", 1)], 3⟩ : Cache Nat) := by
    decide
  have hlen : (⟨2, 0, [(1, ⟨"b", 5, 1⟩), (0, ⟨"a", 4, 0⟩)], some [1, 0], [],
      some [("a", 0), ("b", 1)], 2⟩ : Cache Nat).len = some 2 := by decide
  obtain ⟨n', h1, h2, h3⟩ :=
    claim_C1 (by decide) (by decide) hlen (by decide) hset
  exact ⟨by decide, n', h1, h2, h3⟩

theorem getLast?_cons_of_ne_nil {i : Nat} {l : List Nat} (h : l ≠ []) :
    (i :: l).getLast? = l.getLast? := by
  cases l with
  | nil => exact absurd rfl h
  | cons x xs => exact List.getLast?_cons_cons

/-- promoting a live id to the front of the recency list keeps the invariant
parts; `WFparts` does not look at the `lruIndex` field itself, only at the
list it is given, so the state may carry the promoted list. -/
theorem WFparts_promote {c : Cache V} {m : List (String × Nat)} {lru : List Nat}
    {i : Nat} (wp : WFparts c m lru) (hi : i ∈ lru) :
    WFparts c m (i :: removeFirst i lru) := by
  obtain ⟨hnd, hkeys, hcorr, hsurj, hfresh, httl⟩ := wp
  refine ⟨nodup_moveToFront hnd, hkeys, ?_, ?_, ?_, ?_⟩
  · intro p hp
    obtain ⟨hplru, hpk⟩ := hcorr p hp
    exact ⟨(mem_moveToFront_iff hi).mpr hplru, hpk⟩
  · intro j hj
    exact hsurj j ((mem_moveToFront_iff hi).mp hj)
  · intro j hj
    exact hfresh j ((mem_moveToFront_iff hi).mp hj)
  · intro hexp
    obtain ⟨hpw, hs, hs2⟩ := httl hexp
    exact ⟨hpw, fun j hj => (mem_moveToFront_iff hi).mpr (hs j hj),
      fun j hj => hs2 j ((mem_moveToFront_iff hi).mp hj)⟩

/-- C2: when `Set` of a new key must evict (nonzero capacity, cache full),
the entry removed is exactly the one at the back of the recency order; a
`Get` hit first promotes its key to the front, so after `Get(k1)` the
eviction triggered by inserting a fresh key removes the back entry — which is
not `k1` — and `k1` survives in the map while the back entry's key is gone. -/
theorem claim_C2 {c : Cache V} {m : List (String × Nat)} {lru : List Nat}
    {k1 knew : String} {i1 : Nat} {vnew : V} {now : Nat}
    (w : WF c) (hm : c.cache = some m) (hl : c.lruIndex = some lru)
    (h1 : findId k1 m = some i1) (hnew : findId knew m = none)
    (hcap : c.maxEntries ≠ 0) (hfull : c.maxEntries ≤ lru.length)
    (hlen2 : 2 ≤ lru.length) :
    ∃ v1 c2, c.get k1 = some (some v1, true, c2) ∧
      c2.lruIndex = some (i1 :: removeFirst i1 lru) ∧
      ∃ b en c3,
        (i1 :: removeFirst i1 lru).getLast? = some b ∧
        b ≠ i1 ∧
        findEntry b c.heap = some en ∧
        c2.set knew vnew now = some c3 ∧
        ∃ m3, c3.cache = some m3 ∧
          findId k1 m3 = some i1 ∧
          findId en.key m3 = none := by
  obtain ⟨lru0, hl0, wp⟩ := w.parts hm
  rw [hl] at hl0
  cases Option.some.inj hl0
  have him1 : i1 ∈ lru := (wp.2.2.1 _ (findId_mem h1)).1
  obtain ⟨en1, he1, hen1m, _⟩ := wp.resolve him1
  have hk1key : en1.key = k1 := by
    obtain ⟨_, hc⟩ := wp.2.2.1 _ (findId_mem h1)
    rw [he1] at hc
    exact Option.some.inj hc
  refine ⟨en1.value, _, get_hit_eq hm hl h1 he1, rfl, ?_⟩
  have hrfne : removeFirst i1 lru ≠ [] := by
    intro hnil
    have hlen := length_removeFirst_of_mem him1
    rw [hnil] at hlen
    simp at hlen
    omega
  have hlastne : (removeFirst i1 lru).getLast? ≠ none := by
    cases hc : removeFirst i1 lru with
    | nil => exact absurd hc hrfne
    | cons x xs => exact getLast?_cons_ne_none
  obtain ⟨b, hlastrf⟩ := Option.ne_none_iff_exists'.mp hlastne
  have hbrf : b ∈ removeFirst i1 lru := mem_of_getLast?_eq hlastrf
  have hbne : b ≠ i1 := by
    intro hbi
    exact not_mem_removeFirst_self wp.1 (hbi ▸ hbrf)
  have hblru : b ∈ lru := mem_of_mem_removeFirst hbrf
  obtain ⟨enb, heb, henbm, _⟩ := wp.resolve hblru
  have wp2 : WFparts { c with lruIndex := some (i1 :: removeFirst i1 lru) }
      m (i1 :: removeFirst i1 lru) := WFparts_promote wp him1
  have hlast2 : (i1 :: removeFirst i1 lru).getLast? = some b := by
    rw [getLast?_cons_of_ne_nil hrfne]
    exact hlastrf
  have hcond : ({ c with lruIndex := some (i1 :: removeFirst i1 lru) }
        : Cache V).maxEntries ≠ 0 ∧
      ({ c with lruIndex := some (i1 :: removeFirst i1 lru) }
        : Cache V).maxEntries < (i1 :: removeFirst i1 lru).length + 1 := by
    refine ⟨hcap, ?_⟩
    show c.maxEntries < (i1 :: removeFirst i1 lru).length + 1
    rw [length_moveToFront him1]
    omega
  have wi := @inserted_WF V { c with lruIndex := some (i1 :: removeFirst i1 lru) }
    m (i1 :: removeFirst i1 lru) knew vnew now wp2 hnew
  have hbmem : b ∈ ({ c with lruIndex := some (i1 :: removeFirst i1 lru) }
      : Cache V).nextId :: (i1 :: removeFirst i1 lru) := by
    exact List.mem_cons_of_mem _ (mem_of_getLast?_eq hlast2)
  obtain ⟨en', c3, he', hrm, hceq, wrm⟩ := removeElement_WF rfl rfl wi hbmem
  have hblastins : (({ c with lruIndex := some (i1 :: removeFirst i1 lru) }
      : Cache V).nextId :: (i1 :: removeFirst i1 lru)).getLast? = some b := by
    rw [List.getLast?_cons_cons]
    exact hlast2
  have hm2 : ({ c with lruIndex := some (i1 :: removeFirst i1 lru) }
      : Cache V).cache = some m := hm
  have hset : ({ c with lruIndex := some (i1 :: removeFirst i1 lru) }
      : Cache V).set knew vnew now = some c3 := by
    rw [set_miss_eq hm2 rfl hnew, if_pos hcond,
      removeOldest_eq_last rfl rfl hblastins, hrm]
  have hbnid : b ≠ c.nextId := by
    have := wp.2.2.2.2.1 b hblru
    omega
  have he'' : findEntry b c.heap = some en' := by
    have hcons : findEntry b
        ((c.nextId, (⟨knew, vnew, now⟩ : Entry V)) :: c.heap) = some en' := he'
    rwa [findEntry_cons_ne (fun hh => hbnid hh.symm)] at hcons
  have hen'eq : en' = enb := Option.some.inj (he''.symm.trans heb)
  have hk1b : k1 ≠ en'.key := by
    intro hkk
    apply hbne
    exact wp.key_inj hblru him1 he'' he1 (by rw [← hkk, hk1key])
  have hknew1 : k1 ≠ knew := by
    intro hkk
    rw [hkk, hnew] at h1
    cases h1
  refine ⟨b, enb, c3, hlast2, hbne, heb, hset,
    eraseKey en'.key ((knew, c.nextId) :: eraseKey knew m), by rw [hceq], ?_, ?_⟩
  · rw [findId_eraseKey_ne hk1b, findId_cons, if_neg ?_, findId_eraseKey_ne hknew1]
    · exact h1
    · show ¬ knew = k1
      exact fun hh => hknew1 hh.symm
  · rw [← hen'eq]
    exact findId_eraseKey_self

/-- C2 witness: capacity 3 holding `a`, `b`, `c` (in that insertion order,
`c` most recent); `Get("a")` then `Set("d", 4)` — the back of the recency
order (the id of `b`) is evicted, `a` survives. -/
theorem claim_C2_witness :
    WF (⟨3, 0, [(2, ⟨"c", 3, 2⟩), (1, ⟨"b", 2, 1⟩), (0, ⟨"a", 1, 0⟩)],
        some [2, 1, 0], [], some [("a", 0), ("b", 1), ("c", 2)], 3⟩ : Cache Nat) ∧
    (∃ v1 c2, (⟨3, 0, [(2, ⟨"c", 3, 2⟩), (1, ⟨"b", 2, 1⟩), (0, ⟨"a", 1, 0⟩)],
        some [2, 1, 0], [], some [("a", 0), ("b", 1), ("c", 2)], 3⟩ : Cache Nat).get "a"
        = some (some v1, true, c2) ∧
      c2.lruIndex = some (0 :: removeFirst 0 [2, 1, 0]) ∧
      ∃ b en c3,
        (0 :: removeFirst 0 [2, 1, 0]).getLast? = some b ∧
        b ≠ 0 ∧
        findEntry b (⟨3, 0, [(2, ⟨"c", 3, 2⟩), (1, ⟨"b", 2, 1⟩), (0, ⟨"a", 1, 0⟩)],
          some [2, 1, 0], [], some [("a", 0), ("b", 1), ("c", 2)], 3⟩ : Cache Nat).heap
          = some en ∧
        c2.set "d" 4 3 = some c3 ∧
        ∃ m3, c3.cache = some m3 ∧
          findId "a" m3 = some 0 ∧
          findId en.key m3 = none) :=
  ⟨by decide,
   claim_C2 (by decide) rfl rfl rfl rfl (by decide) (by decide) (by decide)⟩

end Cache2go
